import Mathlib

/-!
Verification of the statistical core of a gamma-ray analysis pipeline
(ON/OFF aperture photometry, WStat Poisson likelihood with a profiled
background nuisance parameter, forward-folded predicted counts, per-bin
flux-point estimation, and the data-reduction bookkeeping around them).

The notebooks delegate the numerics to an external astrophysics library;
the definitions below embed the constructions appearing in the notebooks
together with the statistical procedures as the design document states
them (each such definition carries a `Modelled from the spec:` note).
-/

namespace GammaHandsOn

/-! ### Poisson likelihood and the WStat statistic (design §4.3)

Modelled from the spec: the likelihood fitter itself lives in the external
library; its statistic is specified as
`L(θ) = Π_i Pois(g_i(θ) + b_i ; N_on,i) · Pois(b_i/α ; N_off,i)`
with the per-bin background `b_i` profiled out at its conditional
maximum-likelihood value. -/

/-- Poisson probability mass `μ^n e^(−μ) / n!`. -/
noncomputable def pois (μ : ℝ) (n : ℕ) : ℝ :=
  μ ^ n * Real.exp (-μ) / (Nat.factorial n)

/-- Logarithm of the Poisson mass, written out: `n ln μ − μ − ln n!`. -/
noncomputable def logPois (μ : ℝ) (n : ℕ) : ℝ :=
  n * Real.log μ - μ - Real.log (Nat.factorial n)

/-- Log-likelihood of one reconstructed-energy bin: predicted signal `g`,
background (in the ON region) `b`, exposure ratio `alpha`, observed ON and
OFF counts. -/
noncomputable def binLogL (alpha g b : ℝ) (nOn nOff : ℕ) : ℝ :=
  logPois (g + b) nOn + logPois (b / alpha) nOff

/-- Nonnegative root of the quadratic `k x² + q x − c = 0`, used for the
per-bin profiled background. -/
noncomputable def mlRoot (k q c : ℝ) : ℝ :=
  (-q + Real.sqrt (q ^ 2 + 4 * k * c)) / (2 * k)

/-- Conditional maximum-likelihood value of the per-bin background
nuisance parameter: the nonnegative root of the stationarity condition
`k b² + (k g − (nOn + nOff)) b − nOff·g = 0` with `k = 1 + 1/α`. -/
noncomputable def profiledB (alpha g : ℝ) (nOn nOff : ℕ) : ℝ :=
  mlRoot (1 + 1 / alpha) ((1 + 1 / alpha) * g - ((nOn : ℝ) + (nOff : ℝ)))
    ((nOff : ℝ) * g)

/-- Per-bin fit statistic: `−2 ln` of the bin's likelihood with the
background nuisance parameter profiled out. -/
noncomputable def wstatBin (alpha g : ℝ) (nOn nOff : ℕ) : ℝ :=
  -2 * binLogL alpha g (profiledB alpha g nOn nOff) nOn nOff

section MlRootFacts

variable {k q c : ℝ}

lemma mlRoot_nonneg (hk : 0 < k) (hc : 0 ≤ c) : 0 ≤ mlRoot k q c := by
  unfold mlRoot
  have h1 : |q| ≤ Real.sqrt (q ^ 2 + 4 * k * c) := by
    rw [← Real.sqrt_sq_eq_abs]
    apply Real.sqrt_le_sqrt
    nlinarith
  have h2 : q ≤ |q| := le_abs_self q
  have h3 : 0 ≤ -q + Real.sqrt (q ^ 2 + 4 * k * c) := by linarith
  positivity

lemma mlRoot_pos (hk : 0 < k) (hc : 0 < c) : 0 < mlRoot k q c := by
  unfold mlRoot
  have h1 : |q| < Real.sqrt (q ^ 2 + 4 * k * c) := by
    rw [← Real.sqrt_sq_eq_abs]
    exact Real.sqrt_lt_sqrt (by positivity) (by nlinarith)
  have h2 : q ≤ |q| := le_abs_self q
  have h3 : 0 < -q + Real.sqrt (q ^ 2 + 4 * k * c) := by linarith
  positivity

/-- The root formula does solve the quadratic. -/
lemma mlRoot_quadratic (hk : 0 < k) (hc : 0 ≤ c) :
    k * mlRoot k q c ^ 2 + q * mlRoot k q c - c = 0 := by
  set r := Real.sqrt (q ^ 2 + 4 * k * c) with hr
  have hrsq : r ^ 2 = q ^ 2 + 4 * k * c := by
    rw [hr]
    exact Real.sq_sqrt (by nlinarith)
  set b := mlRoot k q c with hb
  have h2 : 2 * k * b = -q + r := by
    rw [hb]
    unfold mlRoot
    rw [← hr]
    field_simp
  have h4 : 4 * k * (k * b ^ 2 + q * b - c) = 0 := by
    linear_combination (2 * k * b + q + r) * h2 + hrsq
  have hne : (4 : ℝ) * k ≠ 0 := by positivity
  exact (mul_eq_zero.mp h4).resolve_left hne

end MlRootFacts

section ProfiledBFacts

variable {alpha g : ℝ} {nOn nOff : ℕ}

lemma kPos (ha : 0 < alpha) : 0 < 1 + 1 / alpha := by positivity

lemma profiledB_nonneg (ha : 0 < alpha) (hg : 0 ≤ g) :
    0 ≤ profiledB alpha g nOn nOff :=
  mlRoot_nonneg (kPos ha) (by positivity)

lemma profiledB_pos (ha : 0 < alpha) (hg : 0 < g) (hnOff : 1 ≤ nOff) :
    0 < profiledB alpha g nOn nOff := by
  apply mlRoot_pos (kPos ha)
  have h1 : (1 : ℝ) ≤ (nOff : ℝ) := by exact_mod_cast hnOff
  nlinarith

/-- The profiled background satisfies the quadratic stationarity equation
of the per-bin log-likelihood. -/
lemma profiledB_quadratic (ha : 0 < alpha) (hg : 0 ≤ g) :
    (1 + 1 / alpha) * profiledB alpha g nOn nOff ^ 2
      + ((1 + 1 / alpha) * g - ((nOn : ℝ) + (nOff : ℝ))) * profiledB alpha g nOn nOff
      - (nOff : ℝ) * g = 0 :=
  mlRoot_quadratic (kPos ha) (by positivity)

end ProfiledBFacts

section LogHelpers

/-- Difference-of-logarithms bound derived from `ln x ≤ x − 1`. -/
lemma log_diff_le {x y : ℝ} (hx : 0 < x) (hy : 0 < y) :
    Real.log x - Real.log y ≤ (x - y) / y := by
  have h := Real.log_le_sub_one_of_pos (show 0 < x / y from div_pos hx hy)
  rw [Real.log_div (ne_of_gt hx) (ne_of_gt hy)] at h
  have hxy : x / y - 1 = (x - y) / y := by field_simp
  linarith

end LogHelpers

section MlRootZero

/-- A vanishing profiled root forces the constant term to vanish and the
linear coefficient to be nonnegative. -/
lemma mlRoot_eq_zero {k q c : ℝ} (hk : 0 < k) (hc : 0 ≤ c)
    (h : mlRoot k q c = 0) : c = 0 ∧ 0 ≤ q := by
  unfold mlRoot at h
  have h2k : (2 : ℝ) * k ≠ 0 := by positivity
  have hnum : -q + Real.sqrt (q ^ 2 + 4 * k * c) = 0 :=
    (div_eq_zero_iff.mp h).resolve_right h2k
  have hr : Real.sqrt (q ^ 2 + 4 * k * c) = q := by linarith
  have hq0 : 0 ≤ q := hr ▸ Real.sqrt_nonneg _
  have hrsq : Real.sqrt (q ^ 2 + 4 * k * c) ^ 2 = q ^ 2 + 4 * k * c :=
    Real.sq_sqrt (by nlinarith)
  rw [hr] at hrsq
  constructor
  · nlinarith
  · exact hq0

end MlRootZero

section ProfiledMaximality

variable {alpha g b' : ℝ} {nOn nOff : ℕ}

/-- Quadratic stationarity equation with the `1/α` factor cleared. -/
lemma profiledB_quadratic_cleared (ha : 0 < alpha) (hg : 0 ≤ g) :
    (alpha + 1) * profiledB alpha g nOn nOff ^ 2
      + ((alpha + 1) * g - alpha * ((nOn : ℝ) + (nOff : ℝ)))
        * profiledB alpha g nOn nOff
      - alpha * (nOff : ℝ) * g = 0 := by
  have h := @profiledB_quadratic alpha g nOn nOff ha hg
  have hk : alpha * (1 + 1 / alpha) = alpha + 1 := by
    field_simp
  set b := profiledB alpha g nOn nOff with hbdef
  linear_combination alpha * h - (b ^ 2 + g * b) * hk

/-- Stationarity of the per-bin log-likelihood at the profiled background,
in rational form: `nOn/(g+b) + nOff/b = 1 + 1/α`. -/
lemma profiledB_stationary (ha : 0 < alpha) (hg : 0 ≤ g)
    (hb : 0 < profiledB alpha g nOn nOff)
    (hgb : 0 < g + profiledB alpha g nOn nOff) :
    (nOn : ℝ) / (g + profiledB alpha g nOn nOff)
      + (nOff : ℝ) / profiledB alpha g nOn nOff = 1 + 1 / alpha := by
  have hquad := @profiledB_quadratic_cleared alpha g nOn nOff ha hg
  set b := profiledB alpha g nOn nOff with hbdef
  have hbne : b ≠ 0 := ne_of_gt hb
  have hgbne : g + b ≠ 0 := ne_of_gt hgb
  have hane : alpha ≠ 0 := ne_of_gt ha
  field_simp
  linear_combination (-1 : ℝ) * hquad

/-- The profiled background is the conditional maximum-likelihood value of
the per-bin nuisance parameter: at any positive predicted signal `g`, any
other positive background value gives a log-likelihood at most that of
`profiledB`. -/
lemma binLogL_le_profiled (ha : 0 < alpha) (hg : 0 < g) (hb' : 0 < b') :
    binLogL alpha g b' nOn nOff
      ≤ binLogL alpha g (profiledB alpha g nOn nOff) nOn nOff := by
  have hbnn : 0 ≤ profiledB alpha g nOn nOff := profiledB_nonneg ha hg.le
  rcases eq_or_lt_of_le hbnn with hb0 | hbpos
  · -- boundary case: the profiled background is zero, which forces
    -- `nOff = 0` and `nOn ≤ (1 + 1/α) g`
    have hz := mlRoot_eq_zero (kPos ha)
      (show (0 : ℝ) ≤ (nOff : ℝ) * g by positivity) hb0.symm
    have hNoffg : (nOff : ℝ) * g = 0 := hz.1
    have hNoff : (nOff : ℝ) = 0 := by
      rcases mul_eq_zero.mp hNoffg with h | h
      · exact h
      · exact absurd h (ne_of_gt hg)
    have hNoffnat : nOff = 0 := by exact_mod_cast hNoff
    have hq0 : (nOn : ℝ) ≤ (1 + 1 / alpha) * g := by
      have h2 := hz.2
      rw [hNoffnat] at h2
      push_cast at h2
      linarith
    subst hNoffnat
    rw [← hb0]
    unfold binLogL logPois
    simp only [Nat.cast_zero, zero_mul, Nat.factorial_zero, Nat.cast_one,
      Real.log_one, zero_div, add_zero]
    have d1 : Real.log (g + b') - Real.log g ≤ (g + b' - g) / g :=
      log_diff_le (by linarith) hg
    have e1 : (nOn : ℝ) * (Real.log (g + b') - Real.log g)
        ≤ (nOn : ℝ) * ((g + b' - g) / g) :=
      mul_le_mul_of_nonneg_left d1 (Nat.cast_nonneg nOn)
    have hfrac : (nOn : ℝ) / g ≤ 1 + 1 / alpha := by
      rw [div_le_iff₀ hg]
      linarith
    have e2 : ((nOn : ℝ) / g) * b' ≤ (1 + 1 / alpha) * b' :=
      mul_le_mul_of_nonneg_right hfrac hb'.le
    have hrw : (nOn : ℝ) * ((g + b' - g) / g) = ((nOn : ℝ) / g) * b' := by
      ring
    rw [hrw] at e1
    have hb'a : (1 + 1 / alpha) * b' = b' + b' / alpha := by ring
    rw [hb'a] at e2
    linarith
  · -- interior case: compare through the stationarity condition
    set b := profiledB alpha g nOn nOff with hbdef
    have hgb : 0 < g + b := by linarith
    have hgb' : 0 < g + b' := by linarith
    have hstat := @profiledB_stationary alpha g nOn nOff ha hg.le hbpos hgb
    rw [← hbdef] at hstat
    unfold binLogL logPois
    have d1 : Real.log (g + b') - Real.log (g + b) ≤ (g + b' - (g + b)) / (g + b) :=
      log_diff_le hgb' hgb
    have e1 : (nOn : ℝ) * (Real.log (g + b') - Real.log (g + b))
        ≤ (nOn : ℝ) * ((g + b' - (g + b)) / (g + b)) :=
      mul_le_mul_of_nonneg_left d1 (Nat.cast_nonneg nOn)
    have hsub : (g + b' - (g + b)) = b' - b := by ring
    rw [hsub] at e1
    have d2 : Real.log (b' / alpha) - Real.log (b / alpha)
        ≤ (b' / alpha - b / alpha) / (b / alpha) :=
      log_diff_le (div_pos hb' ha) (div_pos hbpos ha)
    have hrw2 : (b' / alpha - b / alpha) / (b / alpha) = (b' - b) / b := by
      field_simp
    rw [hrw2] at d2
    have e2 : (nOff : ℝ) * (Real.log (b' / alpha) - Real.log (b / alpha))
        ≤ (nOff : ℝ) * ((b' - b) / b) :=
      mul_le_mul_of_nonneg_left d2 (Nat.cast_nonneg nOff)
    have hmul : ((nOn : ℝ) / (g + b) + (nOff : ℝ) / b) * (b' - b)
        = (1 + 1 / alpha) * (b' - b) := by
      rw [hstat]
    have hmul2 : (nOn : ℝ) * ((b' - b) / (g + b)) + (nOff : ℝ) * ((b' - b) / b)
        = (b' - b) + (b' / alpha - b / alpha) := by
      linear_combination hmul
    linarith

end ProfiledMaximality

/-! ### Datasets and the summed fit statistic (data model §3, fitter §4.3) -/

/-- One reconstructed-energy bin of an ON/OFF dataset: observed ON counts,
observed OFF counts, and the safe-range/fit mask flag (`true` when the bin
participates in the fit). -/
structure OnOffBin where
  nOn : ℕ
  nOff : ℕ
  mask : Bool

/-- Reduced ON/OFF spectrum dataset: per-bin counts plus the dataset-level
ON-to-OFF exposure ratio `α`. -/
structure SpectrumDatasetOnOff where
  bins : List OnOffBin
  alpha : ℝ

/-- Unmasked bins of a dataset paired with the model's predicted signal
counts for them. -/
def maskedPairs (d : SpectrumDatasetOnOff) (g : List ℝ) : List (OnOffBin × ℝ) :=
  (d.bins.zip g).filter (fun p => p.1.mask)

/-- Fit statistic contributed by one dataset: sum of the per-bin profiled
statistics over the unmasked bins. -/
noncomputable def stat_sum (d : SpectrumDatasetOnOff) (g : List ℝ) : ℝ :=
  ((maskedPairs d g).map (fun p => wstatBin d.alpha p.2 p.1.nOn p.1.nOff)).sum

/-- Likelihood factor of one bin, evaluated at the profiled background:
`Pois(g + b; N_on) · Pois(b/α; N_off)`. -/
noncomputable def binFactor (alpha : ℝ) (p : OnOffBin × ℝ) : ℝ :=
  pois (p.2 + profiledB alpha p.2 p.1.nOn p.1.nOff) p.1.nOn
    * pois (profiledB alpha p.2 p.1.nOn p.1.nOff / alpha) p.1.nOff

/-- Joint likelihood of a dataset over its unmasked bins, the background
nuisance parameter profiled out bin by bin. -/
noncomputable def jointLikelihood (d : SpectrumDatasetOnOff) (g : List ℝ) : ℝ :=
  ((maskedPairs d g).map (binFactor d.alpha)).prod

/-- Objective minimized by the fitter over a collection of datasets, each
carrying its own predicted counts: the total fit statistic. -/
noncomputable def fitTotalStat (dgs : List (SpectrumDatasetOnOff × List ℝ)) : ℝ :=
  (dgs.map (fun q => stat_sum q.1 q.2)).sum

section PoisFacts

lemma pois_pos {μ : ℝ} {n : ℕ} (hμ : 0 ≤ μ) (h : 0 < μ ∨ n = 0) :
    0 < pois μ n := by
  unfold pois
  rcases h with h | h
  · have hfac : (0 : ℝ) < (Nat.factorial n : ℝ) := by
      exact_mod_cast Nat.factorial_pos n
    positivity
  · subst h
    simp [Nat.factorial_zero]
    positivity

lemma log_pois {μ : ℝ} {n : ℕ} (hμ : 0 ≤ μ) (h : 0 < μ ∨ n = 0) :
    Real.log (pois μ n) = logPois μ n := by
  unfold pois logPois
  rcases h with h | h
  · have hfac : (0 : ℝ) < (Nat.factorial n : ℝ) := by
      exact_mod_cast Nat.factorial_pos n
    rw [Real.log_div (by positivity) (ne_of_gt hfac),
      Real.log_mul (by positivity) (ne_of_gt (Real.exp_pos _)),
      Real.log_pow, Real.log_exp]
    ring
  · subst h
    simp [Nat.factorial_zero, Real.log_exp]

lemma binFactor_pos {alpha : ℝ} {p : OnOffBin × ℝ}
    (ha : 0 < alpha) (hg : 0 < p.2) : 0 < binFactor alpha p := by
  unfold binFactor
  have hbnn : 0 ≤ profiledB alpha p.2 p.1.nOn p.1.nOff :=
    profiledB_nonneg ha hg.le
  have h1 : 0 < pois (p.2 + profiledB alpha p.2 p.1.nOn p.1.nOff) p.1.nOn :=
    pois_pos (by linarith) (Or.inl (by linarith))
  have h2 : 0 < pois (profiledB alpha p.2 p.1.nOn p.1.nOff / alpha) p.1.nOff := by
    rcases Nat.eq_zero_or_pos p.1.nOff with h0 | hpos
    · exact pois_pos (by positivity) (Or.inr h0)
    · have hb : 0 < profiledB alpha p.2 p.1.nOn p.1.nOff :=
        profiledB_pos ha hg hpos
      exact pois_pos (by positivity) (Or.inl (by positivity))
  exact mul_pos h1 h2

lemma log_binFactor {alpha : ℝ} {p : OnOffBin × ℝ}
    (ha : 0 < alpha) (hg : 0 < p.2) :
    Real.log (binFactor alpha p)
      = binLogL alpha p.2 (profiledB alpha p.2 p.1.nOn p.1.nOff)
          p.1.nOn p.1.nOff := by
  unfold binFactor binLogL
  have hbnn : 0 ≤ profiledB alpha p.2 p.1.nOn p.1.nOff :=
    profiledB_nonneg ha hg.le
  have h1 : 0 < pois (p.2 + profiledB alpha p.2 p.1.nOn p.1.nOff) p.1.nOn :=
    pois_pos (by linarith) (Or.inl (by linarith))
  have h2 : 0 < pois (profiledB alpha p.2 p.1.nOn p.1.nOff / alpha) p.1.nOff := by
    rcases Nat.eq_zero_or_pos p.1.nOff with h0 | hpos
    · exact pois_pos (by positivity) (Or.inr h0)
    · have hb : 0 < profiledB alpha p.2 p.1.nOn p.1.nOff :=
        profiledB_pos ha hg hpos
      exact pois_pos (by positivity) (Or.inl (by positivity))
  rw [Real.log_mul (ne_of_gt h1) (ne_of_gt h2)]
  congr 1
  · exact log_pois (by linarith) (Or.inl (by linarith))
  · rcases Nat.eq_zero_or_pos p.1.nOff with h0 | hpos
    · exact log_pois (by positivity) (Or.inr h0)
    · have hb : 0 < profiledB alpha p.2 p.1.nOn p.1.nOff :=
        profiledB_pos ha hg hpos
      exact log_pois (by positivity) (Or.inl (by positivity))

/-- Logarithm of a product of positive list entries is the sum of their
logarithms. -/
lemma log_list_prod {l : List ℝ} (h : ∀ x ∈ l, 0 < x) :
    Real.log l.prod = (l.map Real.log).sum := by
  induction l with
  | nil => simp
  | cons a t ih =>
    have ha : 0 < a := h a (List.mem_cons_self a t)
    have ht : ∀ x ∈ t, 0 < x := fun x hx => h x (List.mem_cons_of_mem a hx)
    have htprod : 0 < t.prod := List.prod_pos ht
    rw [List.prod_cons, Real.log_mul (ne_of_gt ha) (ne_of_gt htprod),
      List.map_cons, List.sum_cons, ih ht]

lemma list_sum_map_neg_two {α : Type} {l : List α} (f : α → ℝ) :
    (l.map fun x => -2 * f x).sum = -2 * (l.map f).sum := by
  induction l with
  | nil => simp
  | cons a t ih =>
    rw [List.map_cons, List.sum_cons, List.map_cons, List.sum_cons, ih]
    ring

end PoisFacts

/-- C1: for every dataset with an assigned spectral model (predicted signal
counts `g`, positive on the unmasked bins), the per-dataset fit statistic
`stat_sum` equals `−2 ln` of the joint likelihood
`Π_i Pois(g_i + b_i; N_on,i) · Pois(b_i/α; N_off,i)` over the unmasked
reconstructed-energy bins, where each `b_i` is the per-bin profiled
background — the conditional maximum-likelihood value of the nuisance
parameter (second conjunct) — and the quantity minimized by the fitter is
the sum of these statistics over all datasets (third conjunct). -/
theorem stat_sum_eq_neg_two_log_jointLikelihood
    (d : SpectrumDatasetOnOff) (g : List ℝ)
    (dgs : List (SpectrumDatasetOnOff × List ℝ))
    (ha : 0 < d.alpha)
    (hg : ∀ p ∈ maskedPairs d g, 0 < p.2) :
    stat_sum d g = -2 * Real.log (jointLikelihood d g)
      ∧ (∀ p ∈ maskedPairs d g, ∀ b', 0 < b' →
          binLogL d.alpha p.2 b' p.1.nOn p.1.nOff
            ≤ binLogL d.alpha p.2 (profiledB d.alpha p.2 p.1.nOn p.1.nOff)
                p.1.nOn p.1.nOff)
      ∧ fitTotalStat dgs = (dgs.map (fun q => stat_sum q.1 q.2)).sum := by
  refine ⟨?_, ?_, rfl⟩
  · unfold jointLikelihood stat_sum
    rw [log_list_prod (by
      intro x hx
      obtain ⟨p, hp, rfl⟩ := List.mem_map.mp hx
      exact binFactor_pos ha (hg p hp))]
    rw [List.map_map]
    rw [List.map_congr_left (fun p hp =>
      show (Real.log ∘ binFactor d.alpha) p
          = binLogL d.alpha p.2 (profiledB d.alpha p.2 p.1.nOn p.1.nOff)
              p.1.nOn p.1.nOff
        from log_binFactor ha (hg p hp))]
    simp only [wstatBin]
    exact list_sum_map_neg_two _
  · intro p hp b' hb'
    exact binLogL_le_profiled ha (hg p hp) hb'

/-- Concrete dataset used to instantiate the statistics theorems. -/
def wDataset : SpectrumDatasetOnOff :=
  { bins := [{ nOn := 2, nOff := 1, mask := true }], alpha := 1 }

/-- Witness for C1 at a concrete one-bin dataset with predicted counts
`g = [1]`. -/
theorem stat_sum_eq_neg_two_log_jointLikelihood_witness :
    (0 : ℝ) < wDataset.alpha
    ∧ (stat_sum wDataset [1] = -2 * Real.log (jointLikelihood wDataset [1])
        ∧ (∀ p ∈ maskedPairs wDataset [1], ∀ b', 0 < b' →
            binLogL wDataset.alpha p.2 b' p.1.nOn p.1.nOff
              ≤ binLogL wDataset.alpha p.2
                  (profiledB wDataset.alpha p.2 p.1.nOn p.1.nOff)
                  p.1.nOn p.1.nOff)
        ∧ fitTotalStat [(wDataset, [1])]
            = ([(wDataset, [1])].map (fun q => stat_sum q.1 q.2)).sum) := by
  have hmem : ∀ p ∈ maskedPairs wDataset [(1 : ℝ)], 0 < p.2 := by
    intro p hp
    have hp2 : p = ({ nOn := 2, nOff := 1, mask := true }, (1 : ℝ)) := by
      simpa [maskedPairs, wDataset] using hp
    rw [hp2]
    norm_num
  exact ⟨by norm_num [wDataset],
    stat_sum_eq_neg_two_log_jointLikelihood wDataset [1] [(wDataset, [1])]
      (by norm_num [wDataset]) hmem⟩

/-! ### WStat detection test statistic (§0.3 of the exploration notebook)

Modelled from the spec: the test statistic is `−2 ln (L_null / L_best)`
(glossary), with the likelihood of §4.3; under the null the signal is
zero and the background is profiled, under the alternative the signal is
the non-negative excess `N_on − α·N_off` with background `α·N_off`. -/

/-- Fit statistic of the null (background-only) hypothesis, with the
background profiled at zero signal. -/
noncomputable def statNull (alpha : ℝ) (nOn nOff : ℕ) : ℝ :=
  wstatBin alpha 0 nOn nOff

/-- Fit statistic at the best-fit (maximum-likelihood) signal, the signal
being constrained to be non-negative. -/
noncomputable def statMax (alpha : ℝ) (nOn nOff : ℕ) : ℝ :=
  if alpha * (nOff : ℝ) ≤ (nOn : ℝ) then
    -2 * binLogL alpha ((nOn : ℝ) - alpha * (nOff : ℝ)) (alpha * (nOff : ℝ)) nOn nOff
  else statNull alpha nOn nOff

/-- Detection test statistic computed from `(N_on, N_off, α)`. -/
noncomputable def wstat_ts (alpha : ℝ) (nOn nOff : ℕ) : ℝ :=
  statNull alpha nOn nOff - statMax alpha nOn nOff

section TsFacts

/-- The profiled background at zero signal in closed form. -/
lemma profiledB_zero {alpha : ℝ} {nOn nOff : ℕ} (ha : 0 < alpha) :
    profiledB alpha 0 nOn nOff = ((nOn : ℝ) + (nOff : ℝ)) / (1 + 1 / alpha) := by
  have hS : (0 : ℝ) ≤ (nOn : ℝ) + (nOff : ℝ) := by positivity
  unfold profiledB mlRoot
  rw [show ((1 + 1 / alpha) * (0 : ℝ) - ((nOn : ℝ) + (nOff : ℝ)))
      = -((nOn : ℝ) + (nOff : ℝ)) by ring]
  rw [show ((nOff : ℝ) * (0 : ℝ)) = 0 by ring]
  rw [show (-((nOn : ℝ) + (nOff : ℝ))) ^ 2 + 4 * (1 + 1 / alpha) * 0
      = ((nOn : ℝ) + (nOff : ℝ)) ^ 2 by ring]
  rw [Real.sqrt_sq hS]
  have hane : alpha ≠ 0 := ne_of_gt ha
  have hkne : (1 + 1 / alpha) ≠ 0 := ne_of_gt (kPos ha)
  field_simp
  ring

/-- Poisson log-mass term is maximized when the mean equals the count. -/
lemma logPois_le_diag {μ : ℝ} {n : ℕ} (hμ : 0 ≤ μ) (h : 0 < μ ∨ n = 0) :
    logPois μ n ≤ logPois (n : ℝ) n := by
  unfold logPois
  rcases Nat.eq_zero_or_pos n with h0 | hpos
  · subst h0
    simp only [Nat.cast_zero, zero_mul]
    linarith
  · rcases h with hμpos | h0
    · have hn : (0 : ℝ) < (n : ℝ) := by exact_mod_cast hpos
      have d := log_diff_le hμpos hn
      have e := mul_le_mul_of_nonneg_left d (le_of_lt hn)
      have hc : (n : ℝ) * ((μ - n) / n) = μ - n := by field_simp
      rw [hc] at e
      linarith
    · exact absurd h0 (by omega)

/-- Nonnegativity of the detection test statistic. -/
lemma wstat_ts_nonneg {alpha : ℝ} (ha : 0 < alpha) (nOn nOff : ℕ) :
    0 ≤ wstat_ts alpha nOn nOff := by
  unfold wstat_ts statMax
  by_cases h : alpha * (nOff : ℝ) ≤ (nOn : ℝ)
  · rw [if_pos h]
    have hk := kPos ha
    have key : binLogL alpha 0 (profiledB alpha 0 nOn nOff) nOn nOff
        ≤ binLogL alpha ((nOn : ℝ) - alpha * (nOff : ℝ)) (alpha * (nOff : ℝ))
            nOn nOff := by
      unfold binLogL
      rw [profiledB_zero ha]
      rw [show ((nOn : ℝ) - alpha * (nOff : ℝ) + alpha * (nOff : ℝ)) = (nOn : ℝ)
        by ring]
      rw [show (alpha * (nOff : ℝ) / alpha) = (nOff : ℝ) by
        field_simp]
      apply add_le_add
      · rw [zero_add]
        rcases Nat.eq_zero_or_pos nOn with h0 | hpos
        · exact logPois_le_diag (by positivity) (Or.inr h0)
        · have hnp : (0 : ℝ) < (nOn : ℝ) := by exact_mod_cast hpos
          exact logPois_le_diag (by positivity)
            (Or.inl (div_pos (by linarith [(Nat.cast_nonneg nOff : (0:ℝ) ≤ (nOff : ℝ))]) hk))
      · rcases Nat.eq_zero_or_pos nOff with h0 | hpos
        · exact logPois_le_diag (by positivity) (Or.inr h0)
        · have hnp : (0 : ℝ) < (nOff : ℝ) := by exact_mod_cast hpos
          refine logPois_le_diag (by positivity) (Or.inl ?_)
          have hS : (0 : ℝ) < (nOn : ℝ) + (nOff : ℝ) := by
            linarith [(Nat.cast_nonneg nOn : (0:ℝ) ≤ (nOn : ℝ))]
          positivity
    unfold statNull wstatBin
    linarith
  · rw [if_neg h]
    simp

end TsFacts

/-- Closed form of the detection test statistic for real signal count `x`
and OFF count `N`, valid on the non-deficit region `x ≥ α·N`. -/
noncomputable def tsReal (alpha N x : ℝ) : ℝ :=
  2 * (x * Real.log x + N * Real.log N
    - x * Real.log (alpha / (alpha + 1) * (x + N))
    - N * Real.log ((x + N) / (alpha + 1)))

section TsRealFacts

variable {alpha N x : ℝ}

lemma tsReal_hasDerivAt (ha : 0 < alpha) (hN : 0 ≤ N) (hx : 0 < x) :
    HasDerivAt (tsReal alpha N)
      (2 * (Real.log x - Real.log (alpha / (alpha + 1) * (x + N)))) x := by
  have hxN : 0 < x + N := by linarith
  have ha1 : (0 : ℝ) < alpha + 1 := by linarith
  have hb : (0 : ℝ) < alpha / (alpha + 1) := by positivity
  have hu0 : (0 : ℝ) < alpha / (alpha + 1) * (x + N) := by positivity
  have hv0 : (0 : ℝ) < (x + N) / (alpha + 1) := by positivity
  have h1 : HasDerivAt (fun y : ℝ => y * Real.log y) (Real.log x + 1) x :=
    Real.hasDerivAt_mul_log (ne_of_gt hx)
  have hu : HasDerivAt (fun y : ℝ => alpha / (alpha + 1) * (y + N))
      (alpha / (alpha + 1)) x := by
    simpa using ((hasDerivAt_id x).add_const N).const_mul (alpha / (alpha + 1))
  have hlogu : HasDerivAt (fun y : ℝ => Real.log (alpha / (alpha + 1) * (y + N)))
      ((alpha / (alpha + 1) * (x + N))⁻¹ * (alpha / (alpha + 1))) x :=
    (Real.hasDerivAt_log (ne_of_gt hu0)).comp x hu
  have h2 : HasDerivAt
      (fun y : ℝ => y * Real.log (alpha / (alpha + 1) * (y + N)))
      (1 * Real.log (alpha / (alpha + 1) * (x + N))
        + x * ((alpha / (alpha + 1) * (x + N))⁻¹ * (alpha / (alpha + 1)))) x :=
    (hasDerivAt_id x).mul hlogu
  have hv : HasDerivAt (fun y : ℝ => (y + N) / (alpha + 1)) ((alpha + 1)⁻¹) x := by
    simpa using ((hasDerivAt_id x).add_const N).div_const (alpha + 1)
  have hlogv : HasDerivAt (fun y : ℝ => Real.log ((y + N) / (alpha + 1)))
      (((x + N) / (alpha + 1))⁻¹ * (alpha + 1)⁻¹) x :=
    (Real.hasDerivAt_log (ne_of_gt hv0)).comp x hv
  have h3 : HasDerivAt (fun y : ℝ => N * Real.log ((y + N) / (alpha + 1)))
      (N * (((x + N) / (alpha + 1))⁻¹ * (alpha + 1)⁻¹)) x :=
    hlogv.const_mul N
  have hall := (((h1.add_const (N * Real.log N)).sub h2).sub h3).const_mul 2
  have heq : 2 * (Real.log x + 1
        - (1 * Real.log (alpha / (alpha + 1) * (x + N))
          + x * ((alpha / (alpha + 1) * (x + N))⁻¹ * (alpha / (alpha + 1))))
        - N * (((x + N) / (alpha + 1))⁻¹ * (alpha + 1)⁻¹))
      = 2 * (Real.log x - Real.log (alpha / (alpha + 1) * (x + N))) := by
    have hxNne : x + N ≠ 0 := ne_of_gt hxN
    have ha1ne : alpha + 1 ≠ 0 := ne_of_gt ha1
    have hane : alpha ≠ 0 := ne_of_gt ha
    field_simp
    ring
  have hfun : (fun y : ℝ => 2 * (y * Real.log y + N * Real.log N
        - y * Real.log (alpha / (alpha + 1) * (y + N))
        - N * Real.log ((y + N) / (alpha + 1)))) = tsReal alpha N := by
    funext y
    unfold tsReal
    ring
  rw [← heq, ← hfun]
  exact hall

lemma tsReal_monotoneOn (ha : 0 < alpha) (hN : 0 ≤ N) :
    MonotoneOn (tsReal alpha N) (Set.Ici (alpha * N)) := by
  have ha1 : (0 : ℝ) < alpha + 1 := by linarith
  rcases eq_or_lt_of_le hN with hN0 | hNpos
  · -- OFF count zero: the statistic is an explicit linear function
    have hβ1 : alpha / (alpha + 1) < 1 := by
      rw [div_lt_one ha1]
      linarith
    have hβneg : Real.log (alpha / (alpha + 1)) < 0 :=
      Real.log_neg (by positivity) hβ1
    subst hN0
    intro x1 h1 x2 h2 h12
    simp only [Set.mem_Ici, mul_zero] at h1 h2
    have hval : ∀ y : ℝ, 0 ≤ y →
        tsReal alpha 0 y = -2 * y * Real.log (alpha / (alpha + 1)) := by
      intro y hy
      rcases eq_or_lt_of_le hy with h0 | hpos
      · rw [← h0]
        unfold tsReal
        simp
      · unfold tsReal
        rw [add_zero, Real.log_mul (ne_of_gt (by positivity)) (ne_of_gt hpos)]
        simp only [zero_mul, Real.log_zero, mul_zero]
        ring
    rw [hval x1 h1, hval x2 h2]
    nlinarith
  · -- OFF count positive: mean-value argument on `[αN, ∞)`
    have haN : 0 < alpha * N := by positivity
    apply monotoneOn_of_deriv_nonneg (convex_Ici _)
    · have hpos : ∀ y ∈ Set.Ici (alpha * N), (0 : ℝ) < y := fun y hy =>
        lt_of_lt_of_le haN hy
      have hc1 : ContinuousOn (fun y : ℝ => y * Real.log y)
          (Set.Ici (alpha * N)) := Real.continuous_mul_log.continuousOn
      have hcu : ContinuousOn (fun y : ℝ => alpha / (alpha + 1) * (y + N))
          (Set.Ici (alpha * N)) :=
        continuousOn_const.mul (continuousOn_id.add continuousOn_const)
      have hc2 : ContinuousOn
          (fun y : ℝ => y * Real.log (alpha / (alpha + 1) * (y + N)))
          (Set.Ici (alpha * N)) := by
        refine continuousOn_id.mul (hcu.log ?_)
        intro y hy
        have := hpos y hy
        positivity
      have hcv : ContinuousOn (fun y : ℝ => (y + N) / (alpha + 1))
          (Set.Ici (alpha * N)) :=
        (continuousOn_id.add continuousOn_const).div_const _
      have hc3 : ContinuousOn
          (fun y : ℝ => N * Real.log ((y + N) / (alpha + 1)))
          (Set.Ici (alpha * N)) := by
        refine continuousOn_const.mul (hcv.log ?_)
        intro y hy
        have := hpos y hy
        positivity
      exact (continuousOn_const.mul (((hc1.add continuousOn_const).sub hc2).sub hc3))
    · intro y hy
      rw [interior_Ici] at hy
      have hy0 : 0 < y := lt_trans haN hy
      exact (tsReal_hasDerivAt ha hN hy0).differentiableAt.differentiableWithinAt
    · intro y hy
      rw [interior_Ici] at hy
      have hy0 : 0 < y := lt_trans haN hy
      rw [(tsReal_hasDerivAt ha hN hy0).deriv]
      have harg0 : (0 : ℝ) < alpha / (alpha + 1) * (y + N) := by positivity
      have harg : alpha / (alpha + 1) * (y + N) ≤ y := by
        rw [div_mul_eq_mul_div, div_le_iff₀ ha1]
        nlinarith [le_of_lt hy]
      have := Real.log_le_log harg0 harg
      linarith

end TsRealFacts

section TsBridge

/-- On the non-deficit region the test statistic agrees with its closed
form. -/
lemma wstat_ts_eq_tsReal {alpha : ℝ} {nOn nOff : ℕ} (ha : 0 < alpha)
    (h : alpha * (nOff : ℝ) ≤ (nOn : ℝ)) :
    wstat_ts alpha nOn nOff = tsReal alpha (nOff : ℝ) (nOn : ℝ) := by
  have hane : alpha ≠ 0 := ne_of_gt ha
  have ha1 : (0 : ℝ) < alpha + 1 := by linarith
  have ha1ne : alpha + 1 ≠ 0 := ne_of_gt ha1
  have hkne : (1 + 1 / alpha) ≠ 0 := ne_of_gt (kPos ha)
  unfold wstat_ts statMax statNull wstatBin
  rw [if_pos h]
  unfold binLogL logPois tsReal
  rw [profiledB_zero ha]
  rw [show ((0 : ℝ) + ((nOn : ℝ) + (nOff : ℝ)) / (1 + 1 / alpha))
      = alpha / (alpha + 1) * ((nOn : ℝ) + (nOff : ℝ)) by
    field_simp
    ring]
  rw [show (((nOn : ℝ) + (nOff : ℝ)) / (1 + 1 / alpha) / alpha)
      = ((nOn : ℝ) + (nOff : ℝ)) / (alpha + 1) by
    rw [div_div]
    congr 1
    field_simp]
  rw [show ((nOn : ℝ) - alpha * (nOff : ℝ) + alpha * (nOff : ℝ)) = (nOn : ℝ)
    by ring]
  rw [show (alpha * (nOff : ℝ) / alpha) = (nOff : ℝ) by field_simp]
  have hS : alpha / (alpha + 1) * ((nOn : ℝ) + (nOff : ℝ))
      + ((nOn : ℝ) + (nOff : ℝ)) / (alpha + 1) = (nOn : ℝ) + (nOff : ℝ) := by
    field_simp
    ring
  linear_combination (2 : ℝ) * hS

end TsBridge

/-- C2 (amended): for all non-negative counts and `α > 0` the WStat-based
detection test statistic is non-negative; and for a fixed `N_off` and
fixed `α`, on the non-deficit region `N_on ≥ α·N_off` it is monotonically
non-decreasing in `N_on` (hence in the excess `N_on − α·N_off`).
Monotonicity in `|N_on − α·N_off|` across pairs with different `N_off`
does not hold (see the counterexample). -/
theorem wstat_ts_nonneg_and_excess_monotone
    (alpha : ℝ) (nOn1 nOn2 nOff : ℕ)
    (ha : 0 < alpha) (hlow : alpha * (nOff : ℝ) ≤ (nOn1 : ℝ))
    (h12 : nOn1 ≤ nOn2) :
    (∀ nOn nOff' : ℕ, 0 ≤ wstat_ts alpha nOn nOff')
      ∧ wstat_ts alpha nOn1 nOff ≤ wstat_ts alpha nOn2 nOff := by
  constructor
  · exact fun nOn nOff' => wstat_ts_nonneg ha nOn nOff'
  · have hcast : (nOn1 : ℝ) ≤ (nOn2 : ℝ) := by exact_mod_cast h12
    have hlow2 : alpha * (nOff : ℝ) ≤ (nOn2 : ℝ) := le_trans hlow hcast
    rw [wstat_ts_eq_tsReal ha hlow, wstat_ts_eq_tsReal ha hlow2]
    exact tsReal_monotoneOn ha (Nat.cast_nonneg nOff) hlow hlow2 hcast

/-- Witness for C2 (amended) at `α = 1`, `N_off = 2`, `N_on = 3 ≤ 5`. -/
theorem wstat_ts_nonneg_and_excess_monotone_witness :
    ((0 : ℝ) < 1 ∧ (1 : ℝ) * (2 : ℕ) ≤ ((3 : ℕ) : ℝ) ∧ (3 : ℕ) ≤ (5 : ℕ))
      ∧ ((∀ nOn nOff' : ℕ, 0 ≤ wstat_ts 1 nOn nOff')
          ∧ wstat_ts 1 3 2 ≤ wstat_ts 1 5 2) :=
  ⟨⟨by norm_num, by norm_num, by norm_num⟩,
    wstat_ts_nonneg_and_excess_monotone 1 3 5 2 (by norm_num) (by norm_num)
      (by norm_num)⟩

/-- C2 counterexample: with `α = 1` the pair `(N_on, N_off) = (10100, 10000)`
has absolute excess `100`, strictly larger than the excess `9` of the pair
`(9, 0)`, yet its detection test statistic is strictly smaller. The claim
that the statistic increases monotonically with `|N_on − α·N_off|` is
therefore false. -/
theorem wstat_ts_not_monotone_in_excess :
    |((10100 : ℕ) : ℝ) - 1 * ((10000 : ℕ) : ℝ)| > |((9 : ℕ) : ℝ) - 1 * ((0 : ℕ) : ℝ)|
      ∧ wstat_ts 1 10100 10000 < wstat_ts 1 9 0 := by
  constructor
  · rw [show ((10100 : ℕ) : ℝ) - 1 * ((10000 : ℕ) : ℝ) = 100 by push_cast; ring,
      show ((9 : ℕ) : ℝ) - 1 * ((0 : ℕ) : ℝ) = 9 by push_cast; ring]
    rw [abs_of_pos (by norm_num), abs_of_pos (by norm_num)]
    norm_num
  · have hA : wstat_ts 1 9 0 = tsReal 1 ((0 : ℕ) : ℝ) ((9 : ℕ) : ℝ) :=
      wstat_ts_eq_tsReal (by norm_num) (by push_cast; norm_num)
    have hB : wstat_ts 1 10100 10000 = tsReal 1 ((10000 : ℕ) : ℝ) ((10100 : ℕ) : ℝ) :=
      wstat_ts_eq_tsReal (by norm_num) (by push_cast; norm_num)
    rw [hA, hB]
    push_cast
    unfold tsReal
    have hA2 : (2 : ℝ) * ((9 : ℝ) * Real.log 9 + 0 * Real.log 0
        - 9 * Real.log (1 / (1 + 1) * (9 + 0))
        - 0 * Real.log ((9 + 0) / (1 + 1))) = 18 * Real.log 2 := by
      have h92 : Real.log 9 - Real.log (9 / 2) = Real.log 2 := by
        rw [← Real.log_div (by norm_num) (by norm_num)]
        norm_num
      rw [show (1 : ℝ) / (1 + 1) * (9 + 0) = 9 / 2 by norm_num]
      simp only [zero_mul, Real.log_zero, mul_zero]
      linarith
    have hB2 : (2 : ℝ) * ((10100 : ℝ) * Real.log 10100 + 10000 * Real.log 10000
        - 10100 * Real.log (1 / (1 + 1) * (10100 + 10000))
        - 10000 * Real.log ((10100 + 10000) / (1 + 1))) < 1 := by
      rw [show (1 : ℝ) / (1 + 1) * (10100 + 10000) = 10050 by norm_num,
        show ((10100 : ℝ) + 10000) / (1 + 1) = 10050 by norm_num]
      have d1 : Real.log 10100 - Real.log 10050 ≤ (10100 - 10050) / 10050 :=
        log_diff_le (by norm_num) (by norm_num)
      have d2 : Real.log 10000 - Real.log 10050 ≤ (10000 - 10050) / 10050 :=
        log_diff_le (by norm_num) (by norm_num)
      have e1 : (10100 : ℝ) * (Real.log 10100 - Real.log 10050)
          ≤ 10100 * ((10100 - 10050) / 10050) :=
        mul_le_mul_of_nonneg_left d1 (by norm_num)
      have e2 : (10000 : ℝ) * (Real.log 10000 - Real.log 10050)
          ≤ 10000 * ((10000 - 10050) / 10050) :=
        mul_le_mul_of_nonneg_left d2 (by norm_num)
      have hnum : (2 : ℝ) * (10100 * ((10100 - 10050) / 10050)
          + 10000 * ((10000 - 10050) / 10050)) < 1 := by
        norm_num
      nlinarith
    have hlog2 : (0.6931471803 : ℝ) < Real.log 2 := Real.log_two_gt_d9
    rw [hA2]
    nlinarith

/-! ### Forward model: predicted signal counts (design §4.2)

Modelled from the spec:
`predicted(i) = Σ_true_bins exposure × dispersion × ∫ dE dφ/dE`,
evaluated on a fixed true-energy grid with fixed exposure and energy
dispersion. -/

/-- Spectral model: an amplitude (normalization) parameter times a fixed
spectral shape in true energy (for a power law the shape is `(E/E₀)^(−Γ)`,
for a log-parabola `(E/E₀)^(−α−β ln(E/E₀))`; the shape bundles all
non-amplitude parameters). -/
structure SpectralModel where
  amplitude : ℝ
  shape : ℝ → ℝ

/-- Differential flux `dφ/dE` of a spectral model. -/
noncomputable def dnde (m : SpectralModel) (E : ℝ) : ℝ :=
  m.amplitude * m.shape E

/-- Scaling the amplitude parameter, all other parameters held fixed. -/
def scaleAmplitude (c : ℝ) (m : SpectralModel) : SpectralModel :=
  { amplitude := c * m.amplitude, shape := m.shape }

/-- Power-law spectral model `Φ₀ (E/E₀)^(−Γ)` from the fitting notebook. -/
noncomputable def powerLaw (phi0 gamma e0 : ℝ) : SpectralModel :=
  { amplitude := phi0, shape := fun E => (E / e0) ^ (-gamma) }

/-- Integrated flux of a model over one true-energy bin. -/
noncomputable def fluxInt (m : SpectralModel) (a b : ℝ) : ℝ :=
  ∫ E in a..b, dnde m E

/-- Fixed per-dataset reduction products: true-energy grid, exposure over
true energy, and the energy-dispersion matrix `dispersion(i | true bin j)`. -/
structure IRFGeom where
  nTrue : ℕ
  trueEdges : ℕ → ℝ
  exposure : ℕ → ℝ
  edisp : ℕ → ℕ → ℝ

/-- Predicted signal counts in reconstructed-energy bin `i`:
`Σ_j exposure(j) · dispersion(i|j) · ∫_bin_j dE dφ/dE`. -/
noncomputable def npredSignal (irf : IRFGeom) (m : SpectralModel) (i : ℕ) : ℝ :=
  ∑ j ∈ Finset.range irf.nTrue,
    irf.exposure j * irf.edisp j i
      * fluxInt m (irf.trueEdges j) (irf.trueEdges (j + 1))

/-- Total differential flux of a collection of source models. -/
noncomputable def dndeTotal (ms : List SpectralModel) (E : ℝ) : ℝ :=
  (ms.map (fun m => dnde m E)).sum

/-- Predicted signal counts with all source models assigned at once: the
forward operator applied to the summed flux. -/
noncomputable def npredSignalAll (irf : IRFGeom) (ms : List SpectralModel)
    (i : ℕ) : ℝ :=
  ∑ j ∈ Finset.range irf.nTrue,
    irf.exposure j * irf.edisp j i
      * ∫ E in (irf.trueEdges j)..(irf.trueEdges (j + 1)), dndeTotal ms E

/-- C3: scaling a spectral model's amplitude parameter by a constant
`c > 0` (all other parameters fixed) scales the predicted signal counts in
every reconstructed-energy bin by exactly `c`: the forward model is linear
in the flux model. -/
theorem npredSignal_amplitude_scaling
    (irf : IRFGeom) (m : SpectralModel) (c : ℝ) (i : ℕ) (hc : 0 < c) :
    npredSignal irf (scaleAmplitude c m) i = c * npredSignal irf m i := by
  unfold npredSignal
  rw [Finset.mul_sum]
  refine Finset.sum_congr rfl fun j _ => ?_
  have hflux : fluxInt (scaleAmplitude c m) (irf.trueEdges j) (irf.trueEdges (j + 1))
      = c * fluxInt m (irf.trueEdges j) (irf.trueEdges (j + 1)) := by
    unfold fluxInt dnde scaleAmplitude
    simp only
    rw [show (fun E => c * m.amplitude * m.shape E)
        = fun E => c * (m.amplitude * m.shape E) from funext fun E => by ring]
    exact intervalIntegral.integral_const_mul c _
  rw [hflux]
  ring

/-- Concrete one-true-bin geometry used by witnesses. -/
def wIRF : IRFGeom where
  nTrue := 1
  trueEdges := fun j => (j : ℝ)
  exposure := fun _ => 1
  edisp := fun _ _ => 1

/-- Concrete flat-shape spectral model used by witnesses. -/
def wFlat : SpectralModel where
  amplitude := 1
  shape := fun _ => 1

/-- Second concrete spectral model used by witnesses. -/
def wFlat2 : SpectralModel where
  amplitude := 2
  shape := fun _ => 1

/-- Witness for C3 on a concrete geometry, model and scale factor. -/
theorem npredSignal_amplitude_scaling_witness :
    (0 : ℝ) < 2
      ∧ npredSignal wIRF (scaleAmplitude 2 wFlat) 0
        = 2 * npredSignal wIRF wFlat 0 :=
  ⟨by norm_num, npredSignal_amplitude_scaling wIRF wFlat 2 0 (by norm_num)⟩

section ListIntegral

lemma intervalIntegrable_list_sum {a b : ℝ} (fs : List (ℝ → ℝ))
    (h : ∀ f ∈ fs, IntervalIntegrable f MeasureTheory.volume a b) :
    IntervalIntegrable (fun x => (fs.map (fun f => f x)).sum)
      MeasureTheory.volume a b := by
  induction fs with
  | nil =>
    simp only [List.map_nil, List.sum_nil]
    exact intervalIntegrable_const
  | cons f t ih =>
    simp only [List.map_cons, List.sum_cons]
    exact (h f (List.mem_cons_self f t)).add
      (ih fun g hg => h g (List.mem_cons_of_mem f hg))

lemma integral_list_sum {a b : ℝ} (fs : List (ℝ → ℝ))
    (h : ∀ f ∈ fs, IntervalIntegrable f MeasureTheory.volume a b) :
    (∫ x in a..b, (fs.map (fun f => f x)).sum)
      = (fs.map (fun f => ∫ x in a..b, f x)).sum := by
  induction fs with
  | nil => simp
  | cons f t ih =>
    simp only [List.map_cons, List.sum_cons]
    rw [intervalIntegral.integral_add (h f (List.mem_cons_self f t))
      (intervalIntegrable_list_sum t fun g hg => h g (List.mem_cons_of_mem f hg))]
    rw [ih fun g hg => h g (List.mem_cons_of_mem f hg)]

lemma list_sum_map_mul_left {α : Type} (l : List α) (f : α → ℝ) (c : ℝ) :
    (l.map fun x => c * f x).sum = c * (l.map f).sum := by
  induction l with
  | nil => simp
  | cons a t ih =>
    rw [List.map_cons, List.sum_cons, List.map_cons, List.sum_cons, ih]
    ring

lemma finset_sum_list_sum {α β : Type} (s : Finset β) (l : List α)
    (f : α → β → ℝ) :
    ∑ j ∈ s, (l.map (fun x => f x j)).sum
      = (l.map (fun x => ∑ j ∈ s, f x j)).sum := by
  induction l with
  | nil => simp
  | cons a t ih =>
    simp only [List.map_cons, List.sum_cons, Finset.sum_add_distrib, ih]

end ListIntegral

/-- C10: predicted signal counts are additive over source models — for
every geometry and every reconstructed-energy bin, evaluating the models
separately and summing equals assigning them all at once, provided each
model's flux is integrable over each true-energy bin. -/
theorem npredSignalAll_eq_sum_npredSignal
    (irf : IRFGeom) (ms : List SpectralModel) (i : ℕ)
    (hint : ∀ m ∈ ms, ∀ j < irf.nTrue,
      IntervalIntegrable (dnde m) MeasureTheory.volume
        (irf.trueEdges j) (irf.trueEdges (j + 1))) :
    npredSignalAll irf ms i = (ms.map (fun m => npredSignal irf m i)).sum := by
  unfold npredSignalAll npredSignal
  have hstep : ∀ j ∈ Finset.range irf.nTrue,
      irf.exposure j * irf.edisp j i
          * ∫ E in (irf.trueEdges j)..(irf.trueEdges (j + 1)), dndeTotal ms E
        = (ms.map (fun m => irf.exposure j * irf.edisp j i
            * fluxInt m (irf.trueEdges j) (irf.trueEdges (j + 1)))).sum := by
    intro j hj
    have hj' : j < irf.nTrue := Finset.mem_range.mp hj
    unfold dndeTotal
    rw [show (fun E => ((ms.map (fun m => dnde m E)).sum))
        = fun E => ((ms.map (fun m => dnde m)).map (fun f => f E)).sum from
      funext fun E => by rw [List.map_map]; rfl]
    rw [integral_list_sum (ms.map (fun m => dnde m)) (by
      intro f hf
      obtain ⟨m, hm, rfl⟩ := List.mem_map.mp hf
      exact hint m hm j hj')]
    rw [List.map_map]
    rw [← list_sum_map_mul_left]
    rfl
  rw [Finset.sum_congr rfl hstep]
  rw [finset_sum_list_sum]

/-- Witness for C10 with two constant-shape models on a concrete
geometry. -/
theorem npredSignalAll_eq_sum_npredSignal_witness :
    npredSignalAll wIRF [wFlat, wFlat2] 0
      = ([wFlat, wFlat2].map (fun m => npredSignal wIRF m 0)).sum := by
  apply npredSignalAll_eq_sum_npredSignal
  intro m hm j hj
  have hm2 : m = wFlat ∨ m = wFlat2 := by simpa using hm
  have hconst : dnde m = fun _ => m.amplitude := by
    funext E
    unfold dnde
    rcases hm2 with rfl | rfl
    · simp [wFlat]
    · simp [wFlat2]
  rw [hconst]
  exact intervalIntegrable_const

/-! ### Flux-Point Estimator (design §4.4)

Modelled from the spec: for each requested energy bin independently the
estimator re-fits only a single scale (amplitude) parameter of the model,
holding all shape parameters fixed at the global best fit; the single-bin
scale optimizer itself is abstracted as a function `fitNorm` of the fixed
template and the bin's data. -/

/-- Model parameters as seen by the flux-point estimator: the scale
(amplitude) parameter and the frozen shape parameters (index, curvature,
and so on). -/
structure FluxModelParams where
  norm : ℝ
  shapeParams : List ℝ

/-- One flux point: the re-fitted scale together with the shape parameters
that were used to produce it. -/
structure FluxPoint where
  norm : ℝ
  shapeParams : List ℝ

/-- Re-fit of a single energy bin: only the scale is optimized (by
`fitNorm`, reading the template and this bin's data only); the shape
parameters are copied unchanged from the template. -/
def refitBin {β : Type} (fitNorm : FluxModelParams → β → ℝ)
    (template : FluxModelParams) (bin : β) : FluxPoint :=
  { norm := fitNorm template bin, shapeParams := template.shapeParams }

/-- The estimator's loop over the requested energy bins. -/
def fluxPointsRun {β : Type} (fitNorm : FluxModelParams → β → ℝ)
    (template : FluxModelParams) (bins : List β) : List FluxPoint :=
  bins.map (refitBin fitNorm template)

section GetDHelper

lemma getD_map_of_lt {α β : Type} (f : α → β) (l : List α) (i : ℕ)
    (h : i < l.length) (da : α) (db : β) :
    (l.map f).getD i db = f (l.getD i da) := by
  rw [List.getD_eq_getElem?_getD, List.getD_eq_getElem?_getD,
    List.getElem?_map, List.getElem?_eq_getElem h]
  rfl

end GetDHelper

/-- C4: in every run of the flux-point estimator, the flux point of bin `i`
carries exactly the template's shape parameters (only the scale was
re-fitted), it is a function of the template and bin `i`'s data alone, and
it is identical across any two requested partitions that contain that
bin's data — the presence or absence of other bins does not affect it. -/
theorem fluxPoints_shape_frozen_and_bin_independent {β : Type}
    (fitNorm : FluxModelParams → β → ℝ) (template : FluxModelParams)
    (bins bins' : List β) (db : β) (dp : FluxPoint) (i i' : ℕ)
    (hi : i < bins.length) (hi' : i' < bins'.length)
    (hsame : bins.getD i db = bins'.getD i' db) :
    ((fluxPointsRun fitNorm template bins).getD i dp).shapeParams
        = template.shapeParams
      ∧ (fluxPointsRun fitNorm template bins).getD i dp
          = refitBin fitNorm template (bins.getD i db)
      ∧ (fluxPointsRun fitNorm template bins).getD i dp
          = (fluxPointsRun fitNorm template bins').getD i' dp := by
  have h1 : (fluxPointsRun fitNorm template bins).getD i dp
      = refitBin fitNorm template (bins.getD i db) :=
    getD_map_of_lt _ bins i hi db dp
  have h2 : (fluxPointsRun fitNorm template bins').getD i' dp
      = refitBin fitNorm template (bins'.getD i' db) :=
    getD_map_of_lt _ bins' i' hi' db dp
  refine ⟨?_, h1, ?_⟩
  · rw [h1]
    rfl
  · rw [h1, h2, hsame]

/-- Witness for C4: two partitions `[5, 7]` and `[7]` of bin data sharing
the bin `7`. -/
theorem fluxPoints_shape_frozen_and_bin_independent_witness :
    ((1 : ℕ) < 2 ∧ (0 : ℕ) < 1
        ∧ [5, 7].getD 1 0 = [7].getD 0 0)
      ∧ (((fluxPointsRun (fun _ b => (b : ℝ)) { norm := 1, shapeParams := [2] }
            [5, 7]).getD 1 { norm := 0, shapeParams := [] }).shapeParams
          = ({ norm := 1, shapeParams := [2] } : FluxModelParams).shapeParams
        ∧ (fluxPointsRun (fun _ b => (b : ℝ)) { norm := 1, shapeParams := [2] }
            [5, 7]).getD 1 { norm := 0, shapeParams := [] }
          = refitBin (fun _ b => (b : ℝ)) { norm := 1, shapeParams := [2] }
              ([5, 7].getD 1 0)
        ∧ (fluxPointsRun (fun _ b => (b : ℝ)) { norm := 1, shapeParams := [2] }
            [5, 7]).getD 1 { norm := 0, shapeParams := [] }
          = (fluxPointsRun (fun _ b => (b : ℝ)) { norm := 1, shapeParams := [2] }
              [7]).getD 0 { norm := 0, shapeParams := [] }) :=
  ⟨⟨by norm_num, by norm_num, by rfl⟩,
    fluxPoints_shape_frozen_and_bin_independent (fun _ b => (b : ℝ))
      { norm := 1, shapeParams := [2] } [5, 7] [7] 0
      { norm := 0, shapeParams := [] } 1 0 (by norm_num) (by norm_num) (by rfl)⟩

/-! ### Dataset reducer error isolation (design §4.1 failure clause, §7)

Modelled from the spec: when no OFF region satisfying the requested
constraints can be found for an observation, the background maker returns
the dataset flagged incomplete (a recoverable per-dataset failure) instead
of raising; the reduction loop over observations is the one of the
reduction notebook. -/

/-- Result of reducing one observation. -/
structure ReducedDataset (δ : Type) where
  data : δ
  countsOff : Option (List ℕ)
  incomplete : Bool

/-- Background maker: fills the OFF counts when the region finder
succeeds, otherwise marks the dataset incomplete. Total — it never
raises. -/
def bkgMakerRun {ω δ : Type} (findOffRegions : ω → Option (List ℕ))
    (dataset : δ) (obs : ω) : ReducedDataset δ :=
  match findOffRegions obs with
  | none => { data := dataset, countsOff := none, incomplete := true }
  | some off => { data := dataset, countsOff := some off, incomplete := false }

/-- The multi-observation reduction loop: each observation is reduced by
the dataset maker then the background maker, and the result appended. -/
def reduceLoop {ω δ : Type} (dsMaker : ω → δ)
    (findOffRegions : ω → Option (List ℕ)) (obss : List ω) :
    List (ReducedDataset δ) :=
  obss.map (fun o => bkgMakerRun findOffRegions (dsMaker o) o)

/-- C5: the reduction loop reduces every observation of the batch (one
output per input, each a pure function of its own observation), and an
observation for which no OFF region is found yields a dataset flagged
incomplete with no OFF counts — it does not terminate the loop, the other
observations are still reduced. -/
theorem reduceLoop_isolates_failures {ω δ : Type} (dsMaker : ω → δ)
    (findOffRegions : ω → Option (List ℕ)) (obss : List ω)
    (i : ℕ) (hi : i < obss.length) (dω : ω) (dδ : ReducedDataset δ) :
    (reduceLoop dsMaker findOffRegions obss).length = obss.length
      ∧ (reduceLoop dsMaker findOffRegions obss).getD i dδ
          = bkgMakerRun findOffRegions (dsMaker (obss.getD i dω)) (obss.getD i dω)
      ∧ (findOffRegions (obss.getD i dω) = none →
          ((reduceLoop dsMaker findOffRegions obss).getD i dδ).incomplete = true
            ∧ ((reduceLoop dsMaker findOffRegions obss).getD i dδ).countsOff
                = none) := by
  have h1 : (reduceLoop dsMaker findOffRegions obss).getD i dδ
      = bkgMakerRun findOffRegions (dsMaker (obss.getD i dω)) (obss.getD i dω) :=
    getD_map_of_lt _ obss i hi dω dδ
  refine ⟨List.length_map obss _, h1, fun hnone => ?_⟩
  rw [h1]
  unfold bkgMakerRun
  rw [hnone]
  exact ⟨rfl, rfl⟩

/-- Witness for C5: a two-observation batch whose first observation has no
usable OFF region. -/
theorem reduceLoop_isolates_failures_witness :
    ((0 : ℕ) < 2)
      ∧ ((reduceLoop (fun o : ℕ => o)
            (fun o => if o = 0 then none else some [o]) [0, 1]).length
          = [0, 1].length
        ∧ (reduceLoop (fun o : ℕ => o)
            (fun o => if o = 0 then none else some [o]) [0, 1]).getD 0
              { data := 0, countsOff := none, incomplete := false }
          = bkgMakerRun (fun o => if o = 0 then none else some [o])
              ((fun o : ℕ => o) ([0, 1].getD 0 0)) ([0, 1].getD 0 0)
        ∧ ((fun o => if o = 0 then none else some [o]) ([0, 1].getD 0 0) = none →
            ((reduceLoop (fun o : ℕ => o)
              (fun o => if o = 0 then none else some [o]) [0, 1]).getD 0
                { data := 0, countsOff := none, incomplete := false }).incomplete
              = true
            ∧ ((reduceLoop (fun o : ℕ => o)
              (fun o => if o = 0 then none else some [o]) [0, 1]).getD 0
                { data := 0, countsOff := none, incomplete := false }).countsOff
              = none)) :=
  ⟨by norm_num,
    reduceLoop_isolates_failures (fun o : ℕ => o)
      (fun o => if o = 0 then none else some [o]) [0, 1] 0 (by norm_num) 0
      { data := 0, countsOff := none, incomplete := false }⟩

/-! ### Dataset reducer invariant (data model §3, reducer §4.1)

Modelled from the spec: ON counts are the histogram of ON-region event
energies over the reconstructed-energy axis; OFF counts are summed over
all OFF regions; `α` is the ratio of ON to OFF acceptance; the energy
dispersion row of a true-energy bin collects the probability mass of a
migration distribution over the covered reconstructed bins, mass outside
the reconstructed range being dropped. -/

/-- An observed event: reconstructed energy and sky coordinates. -/
structure EventRec where
  energy : ℚ
  ra : ℚ
  dec : ℚ

/-- Histogram of energies over the bins of an edge sequence. -/
def histogram (edges : List ℚ) (es : List ℚ) : List ℕ :=
  (List.range (edges.length - 1)).map (fun i =>
    es.countP (fun en =>
      decide (edges.getD i 0 ≤ en ∧ en < edges.getD (i + 1) 0)))

/-- Elementwise sum of per-region histograms (all of length `n`). -/
def sumHistograms (n : ℕ) (hs : List (List ℕ)) : List ℕ :=
  hs.foldr (fun h acc => List.zipWith (· + ·) h acc) (List.replicate n 0)

/-- Mass of the migration distribution `pdf` (over `K` discrete outcomes)
falling into reconstructed bin `i` according to the outcome-to-bin map
`binOf` (`none` = outside the reconstructed range). -/
def edispEntry (K : ℕ) (pdf : ℕ → ℚ) (binOf : ℕ → Option ℕ) (i : ℕ) : ℚ :=
  ∑ k ∈ (Finset.range K).filter (fun k => binOf k = some i), pdf k

/-- Energy-dispersion matrix: `T` true-energy rows over `M` reconstructed
bins. -/
def edispMatrix (T M K : ℕ) (pdf : ℕ → ℕ → ℚ) (binOf : ℕ → Option ℕ) :
    List (List ℚ) :=
  (List.range T).map (fun j =>
    (List.range M).map (fun i => edispEntry K (pdf j) binOf i))

/-- Reduced ON/OFF dataset as produced by the reducer. -/
structure ReducedOnOff where
  countsOn : List ℕ
  countsOff : List ℕ
  alpha : ℚ
  edisp : List (List ℚ)

/-- The dataset reducer: histogram the ON-region events, histogram and sum
the OFF-region events, set `α` to the acceptance ratio, and take the
dispersion matrix from the instrument response. -/
def reduceDataset (events : List EventRec) (onRegion : EventRec → Bool)
    (offRegions : List (EventRec → Bool)) (edges : List ℚ)
    (onAcc offAcc : ℚ) (T M K : ℕ) (pdf : ℕ → ℕ → ℚ)
    (binOf : ℕ → Option ℕ) : ReducedOnOff :=
  { countsOn := histogram edges ((events.filter onRegion).map EventRec.energy)
  , countsOff := sumHistograms (edges.length - 1)
      (offRegions.map (fun r =>
        histogram edges ((events.filter r).map EventRec.energy)))
  , alpha := onAcc / offAcc
  , edisp := edispMatrix T M K pdf binOf }

section EdispRowSum

lemma range_map_sum (n : ℕ) (f : ℕ → ℚ) :
    ((List.range n).map f).sum = ∑ i ∈ Finset.range n, f i := by
  induction n with
  | zero => simp
  | succ m ih =>
    rw [List.range_succ, List.map_append, List.sum_append,
      Finset.sum_range_succ, ih]
    simp

lemma edisp_row_sum_le_one (K M : ℕ) (pdf : ℕ → ℚ) (binOf : ℕ → Option ℕ)
    (hnn : ∀ k, 0 ≤ pdf k) (hsum : ∑ k ∈ Finset.range K, pdf k = 1) :
    ∑ i ∈ Finset.range M, edispEntry K pdf binOf i ≤ 1 := by
  unfold edispEntry
  have hdisj : (↑(Finset.range M) : Set ℕ).PairwiseDisjoint
      (fun i => (Finset.range K).filter (fun k => binOf k = some i)) := by
    intro i _ i' _ hne
    simp only [Function.onFun]
    rw [Finset.disjoint_left]
    intro k hk hk'
    rw [Finset.mem_filter] at hk hk'
    exact hne (Option.some_injective _ (hk.2.symm.trans hk'.2))
  rw [← Finset.sum_biUnion hdisj]
  have hsub : (Finset.range M).biUnion
      (fun i => (Finset.range K).filter (fun k => binOf k = some i))
      ⊆ Finset.range K := by
    intro k hk
    rw [Finset.mem_biUnion] at hk
    obtain ⟨i, _, hk2⟩ := hk
    exact (Finset.mem_filter.mp hk2).1
  calc ∑ k ∈ (Finset.range M).biUnion
        (fun i => (Finset.range K).filter (fun k => binOf k = some i)), pdf k
      ≤ ∑ k ∈ Finset.range K, pdf k :=
        Finset.sum_le_sum_of_subset_of_nonneg hsub (fun k _ _ => hnn k)
    _ = 1 := hsum

end EdispRowSum

/-- C6: every dataset produced by the reducer satisfies the data-model
invariant — ON and OFF counts are non-negative integers, the ON counts
being the histogram of ON-region event energies over the
reconstructed-energy axis and the OFF counts being summed over all OFF
regions; `α > 0`; and every row of the energy-dispersion matrix sums to at
most `1`. -/
theorem reduceDataset_invariant (events : List EventRec)
    (onRegion : EventRec → Bool) (offRegions : List (EventRec → Bool))
    (edges : List ℚ) (onAcc offAcc : ℚ) (T M K : ℕ) (pdf : ℕ → ℕ → ℚ)
    (binOf : ℕ → Option ℕ)
    (hOn : 0 < onAcc) (hOff : 0 < offAcc)
    (hpdf : ∀ j k, 0 ≤ pdf j k)
    (hpdfsum : ∀ j, ∑ k ∈ Finset.range K, pdf j k = 1) :
    (∀ i : ℕ,
        (0 : ℤ) ≤ ((reduceDataset events onRegion offRegions edges onAcc offAcc
            T M K pdf binOf).countsOn.getD i 0 : ℤ)
        ∧ (0 : ℤ) ≤ ((reduceDataset events onRegion offRegions edges onAcc offAcc
            T M K pdf binOf).countsOff.getD i 0 : ℤ))
      ∧ (reduceDataset events onRegion offRegions edges onAcc offAcc
            T M K pdf binOf).countsOn
          = histogram edges ((events.filter onRegion).map EventRec.energy)
      ∧ (reduceDataset events onRegion offRegions edges onAcc offAcc
            T M K pdf binOf).countsOff
          = sumHistograms (edges.length - 1)
              (offRegions.map (fun r =>
                histogram edges ((events.filter r).map EventRec.energy)))
      ∧ 0 < (reduceDataset events onRegion offRegions edges onAcc offAcc
            T M K pdf binOf).alpha
      ∧ ∀ row ∈ (reduceDataset events onRegion offRegions edges onAcc offAcc
            T M K pdf binOf).edisp, row.sum ≤ 1 := by
  refine ⟨fun i => ⟨Int.natCast_nonneg _, Int.natCast_nonneg _⟩, rfl, rfl,
    div_pos hOn hOff, ?_⟩
  intro row hrow
  unfold reduceDataset edispMatrix at hrow
  simp only at hrow
  rw [List.mem_map] at hrow
  obtain ⟨j, _, rfl⟩ := hrow
  rw [range_map_sum]
  exact edisp_row_sum_le_one K M (pdf j) binOf (hpdf j) (hpdfsum j)

/-- Witness for C6 on a one-event, one-bin concrete reduction. -/
theorem reduceDataset_invariant_witness :
    ((0 : ℚ) < 1 ∧ (∀ j : ℕ, ∑ k ∈ Finset.range 1, (fun _ _ : ℕ => (1 : ℚ)) j k = 1))
      ∧ (∀ i : ℕ,
          (0 : ℤ) ≤ ((reduceDataset [{ energy := 1, ra := 0, dec := 0 }]
              (fun _ => true) [fun _ => true] [0, 2] 1 1 1 1 1
              (fun _ _ => 1) (fun _ => some 0)).countsOn.getD i 0 : ℤ)
          ∧ (0 : ℤ) ≤ ((reduceDataset [{ energy := 1, ra := 0, dec := 0 }]
              (fun _ => true) [fun _ => true] [0, 2] 1 1 1 1 1
              (fun _ _ => 1) (fun _ => some 0)).countsOff.getD i 0 : ℤ))
        ∧ (reduceDataset [{ energy := 1, ra := 0, dec := 0 }]
              (fun _ => true) [fun _ => true] [0, 2] 1 1 1 1 1
              (fun _ _ => 1) (fun _ => some 0)).countsOn
            = histogram [0, 2] (([{ energy := 1, ra := 0, dec := 0 }].filter
                (fun _ => true)).map EventRec.energy)
        ∧ (reduceDataset [{ energy := 1, ra := 0, dec := 0 }]
              (fun _ => true) [fun _ => true] [0, 2] 1 1 1 1 1
              (fun _ _ => 1) (fun _ => some 0)).countsOff
            = sumHistograms ([0, 2].length - 1)
                ([fun _ => true].map (fun r =>
                  histogram [0, 2] (([{ energy := 1, ra := 0, dec := 0 }].filter
                    r).map EventRec.energy)))
        ∧ 0 < (reduceDataset [{ energy := 1, ra := 0, dec := 0 }]
              (fun _ => true) [fun _ => true] [0, 2] 1 1 1 1 1
              (fun _ _ => 1) (fun _ => some 0)).alpha
        ∧ ∀ row ∈ (reduceDataset [{ energy := 1, ra := 0, dec := 0 }]
              (fun _ => true) [fun _ => true] [0, 2] 1 1 1 1 1
              (fun _ _ => 1) (fun _ => some 0)).edisp, row.sum ≤ 1 :=
  ⟨⟨by norm_num, fun j => by simp⟩,
    reduceDataset_invariant [{ energy := 1, ra := 0, dec := 0 }]
      (fun _ => true) [fun _ => true] [0, 2] 1 1 1 1 1 (fun _ _ => 1)
      (fun _ => some 0) (by norm_num) (by norm_num) (fun j k => by norm_num)
      (fun j => by simp)⟩

/-! ### Dataset persistence round-trip (§6 outputs)

Modelled from the spec: a reduced dataset is persisted as binary table
columns (integer counts columns, a floating exposure column, the
dispersion matrix flattened with its dimensions); reading restores the
in-memory dataset. -/

/-- In-memory reduced dataset content subject to persistence. -/
structure SpecData where
  countsOn : List ℕ
  countsOff : List ℕ
  exposure : List ℝ
  nReco : ℕ
  edisp : List (List ℝ)

/-- Persisted file form: integer count columns, exposure column, flattened
dispersion with its row/column counts. -/
structure PHAFile where
  countsOnCol : List ℤ
  countsOffCol : List ℤ
  exposureCol : List ℝ
  nTrueKey : ℕ
  nRecoKey : ℕ
  edispCol : List ℝ

/-- Write a dataset to its persisted form. -/
def writeDataset (d : SpecData) : PHAFile :=
  { countsOnCol := d.countsOn.map Int.ofNat
  , countsOffCol := d.countsOff.map Int.ofNat
  , exposureCol := d.exposure
  , nTrueKey := d.edisp.length
  , nRecoKey := d.nReco
  , edispCol := d.edisp.flatten }

/-- Rebuild a `rows × cols` matrix from its flattened column. -/
def unflattenRows (rows cols : ℕ) (l : List ℝ) : List (List ℝ) :=
  match rows with
  | 0 => []
  | r + 1 => l.take cols :: unflattenRows r cols (l.drop cols)

/-- Read a dataset back from its persisted form. -/
def readDataset (f : PHAFile) : SpecData :=
  { countsOn := f.countsOnCol.map Int.toNat
  , countsOff := f.countsOffCol.map Int.toNat
  , exposure := f.exposureCol
  , nReco := f.nRecoKey
  , edisp := unflattenRows f.nTrueKey f.nRecoKey f.edispCol }

section RoundTrip

lemma unflatten_flatten (cols : ℕ) (rows : List (List ℝ))
    (h : ∀ r ∈ rows, r.length = cols) :
    unflattenRows rows.length cols rows.flatten = rows := by
  induction rows with
  | nil => rfl
  | cons r t ih =>
    have hr : r.length = cols := h r (List.mem_cons_self r t)
    rw [List.length_cons, List.flatten_cons]
    show (r ++ t.flatten).take cols :: unflattenRows t.length cols
        ((r ++ t.flatten).drop cols) = r :: t
    have htake : (r ++ t.flatten).take cols = r := by
      rw [← hr]
      exact List.take_left r t.flatten
    have hdrop : (r ++ t.flatten).drop cols = t.flatten := by
      rw [← hr]
      exact List.drop_left r t.flatten
    rw [htake, hdrop, ih fun s hs => h s (List.mem_cons_of_mem r hs)]

lemma map_toNat_map_natCast (l : List ℕ) :
    (l.map Int.ofNat).map Int.toNat = l := by
  induction l with
  | nil => rfl
  | cons a t ih =>
    rw [List.map_cons, List.map_cons, ih]
    rfl

end RoundTrip

/-- C7: writing a dataset to its persisted form and reading it back
restores the ON counts and OFF counts exactly (integer columns) and the
exposure and energy-dispersion content exactly (the real-valued model of
the floating columns), for every dataset whose dispersion matrix is
rectangular with rows of length `nReco`. -/
theorem dataset_write_read_roundtrip (d : SpecData)
    (hrect : ∀ r ∈ d.edisp, r.length = d.nReco) :
    readDataset (writeDataset d) = d := by
  obtain ⟨con, coff, ex, nR, ed⟩ := d
  unfold readDataset writeDataset
  simp only
  rw [map_toNat_map_natCast, map_toNat_map_natCast]
  rw [unflatten_flatten nR ed hrect]

/-- Concrete dataset used by the round-trip witness. -/
def wSpecData : SpecData where
  countsOn := [3]
  countsOff := [1]
  exposure := [2]
  nReco := 2
  edisp := [[5, 7]]

/-- Witness for C7 on a concrete dataset. -/
theorem dataset_write_read_roundtrip_witness :
    (∀ r ∈ wSpecData.edisp, r.length = wSpecData.nReco)
      ∧ readDataset (writeDataset wSpecData) = wSpecData := by
  have hrect : ∀ r ∈ wSpecData.edisp, r.length = wSpecData.nReco := by
    intro r hr
    have hr2 : r = [5, 7] := by simpa [wSpecData] using hr
    rw [hr2]
    rfl
  exact ⟨hrect, dataset_write_read_roundtrip wSpecData hrect⟩

/-! ### Guarding the Poisson terms against non-positive predictions (§7)

Modelled from the spec: zero or negative predicted counts are invalid
inputs to the Poisson term and are clamped to a (small) positive value
before the statistic is evaluated. -/

/-- Clamping floor for predicted counts. -/
noncomputable def npredEps : ℝ := 1 / 10 ^ 25

/-- Clamp applied to the predicted signal counts before likelihood
evaluation. -/
noncomputable def clampNpred (g : ℝ) : ℝ := max g npredEps

/-- C8: for every predicted signal count `g` — zero or negative included —
and all non-negative observed counts, the statistic is evaluated at the
clamped prediction, and every quantity fed to a logarithm in its Poisson
terms is strictly positive: the clamped prediction itself, the total ON
mean `g_clamped + b`, and (whenever the OFF term is present, `N_off ≥ 1`)
the OFF mean `b/α`. The evaluation is therefore total, with no logarithm
of a non-positive number. -/
theorem clamped_stat_total (g alpha : ℝ) (nOn nOff : ℕ) (ha : 0 < alpha) :
    0 < clampNpred g
      ∧ 0 < clampNpred g + profiledB alpha (clampNpred g) nOn nOff
      ∧ (1 ≤ nOff → 0 < profiledB alpha (clampNpred g) nOn nOff / alpha)
      ∧ wstatBin alpha (clampNpred g) nOn nOff
          = -2 * binLogL alpha (clampNpred g)
              (profiledB alpha (clampNpred g) nOn nOff) nOn nOff := by
  have heps : (0 : ℝ) < npredEps := by
    unfold npredEps
    norm_num
  have hc : 0 < clampNpred g := lt_of_lt_of_le heps (le_max_right g npredEps)
  have hb : 0 ≤ profiledB alpha (clampNpred g) nOn nOff :=
    profiledB_nonneg ha hc.le
  refine ⟨hc, by linarith, fun hOff => ?_, rfl⟩
  exact div_pos (profiledB_pos ha hc hOff) ha

/-- Witness for C8 at a negative predicted count. -/
theorem clamped_stat_total_witness :
    (0 : ℝ) < 1
      ∧ (0 < clampNpred (-3)
          ∧ 0 < clampNpred (-3) + profiledB 1 (clampNpred (-3)) 5 4
          ∧ (1 ≤ (4 : ℕ) → 0 < profiledB 1 (clampNpred (-3)) 5 4 / 1)
          ∧ wstatBin 1 (clampNpred (-3)) 5 4
              = -2 * binLogL 1 (clampNpred (-3))
                  (profiledB 1 (clampNpred (-3)) 5 4) 5 4) :=
  ⟨by norm_num, clamped_stat_total (-3) 1 5 4 (by norm_num)⟩

/-! ### Aperture-photometry OFF region (exploration notebook §0.3)

The notebook builds the OFF region by mirroring the ON region through the
pointing position:
`source_angle = pointing.position_angle(crab)`,
`off_region_angle = source_angle + 180°`,
`off_region_centre = pointing.directional_offset_by(off_region_angle,
pointing_offset)` with `pointing_offset = pointing.separation(crab)`, and
an OFF circle of the same 0.2° radius as the ON circle. The sky is
modelled as the unit sphere in ℝ³; the external library's `separation` is
the angle `arccos ⟨p, q⟩` and `directional_offset_by` moves along the
great circle through the local north/east tangent frame. -/

/-- Vector in ℝ³ (sky positions are unit vectors). -/
structure Vec3 where
  x : ℝ
  y : ℝ
  z : ℝ

/-- Euclidean inner product on ℝ³. -/
def dotV (a b : Vec3) : ℝ := a.x * b.x + a.y * b.y + a.z * b.z

/-- Scalar multiple. -/
def smulV (c : ℝ) (a : Vec3) : Vec3 := ⟨c * a.x, c * a.y, c * a.z⟩

/-- Vector sum. -/
def addV (a b : Vec3) : Vec3 := ⟨a.x + b.x, a.y + b.y, a.z + b.z⟩

/-- Angular separation of two sky positions (unit vectors). -/
noncomputable def angularSep (a b : Vec3) : ℝ := Real.arccos (dotV a b)

/-- Library `directional_offset_by`: from `p`, with local north/east
orthonormal tangent frame `(n, e)`, move `sep` along position angle `θ`
(from north towards east). -/
noncomputable def directionalOffsetBy (p n e : Vec3) (θ sep : ℝ) : Vec3 :=
  addV (smulV (Real.cos sep) p)
    (addV (smulV (Real.sin sep * Real.cos θ) n)
      (smulV (Real.sin sep * Real.sin θ) e))

/-- Circular sky region. -/
structure CircleRegion where
  center : Vec3
  radius : ℝ

/-- ON region of the notebook: 0.2° circle at the source position. -/
noncomputable def onRegionOf (crab : Vec3) : CircleRegion :=
  { center := crab, radius := 0.2 }

/-- Pointing-to-source separation of the notebook. -/
noncomputable def pointingOffset (pointing crab : Vec3) : ℝ :=
  angularSep pointing crab

/-- OFF region of the notebook: same radius, centre offset from the
pointing by `pointing_offset` at position angle `source_angle + 180°`. -/
noncomputable def offRegionOf (pointing crab n e : Vec3) (sourceAngle : ℝ) :
    CircleRegion :=
  { center := directionalOffsetBy pointing n e (sourceAngle + Real.pi)
      (pointingOffset pointing crab)
  , radius := 0.2 }

/-- C9: the OFF region is the mirror image of the ON region through the
pointing position — its centre is placed exactly at separation
`pointing_offset` (the pointing-to-source separation) from the pointing,
at position angle `source_angle + 180°`, and its radius equals the ON
radius of 0.2°. Hypotheses: the pointing is a unit vector with an
orthonormal tangent frame, and the inner product with the source direction
lies in `[−1, 1]`. -/
theorem off_region_mirrors_on_region
    (pointing crab n e : Vec3) (sourceAngle : ℝ)
    (hp : dotV pointing pointing = 1)
    (hn : dotV pointing n = 0) (he : dotV pointing e = 0)
    (hd1 : -1 ≤ dotV pointing crab) (hd2 : dotV pointing crab ≤ 1) :
    angularSep pointing (offRegionOf pointing crab n e sourceAngle).center
        = pointingOffset pointing crab
      ∧ (offRegionOf pointing crab n e sourceAngle).center
          = directionalOffsetBy pointing n e (sourceAngle + Real.pi)
              (pointingOffset pointing crab)
      ∧ (offRegionOf pointing crab n e sourceAngle).radius
          = (onRegionOf crab).radius := by
  refine ⟨?_, rfl, rfl⟩
  have hdot : dotV pointing
      (directionalOffsetBy pointing n e (sourceAngle + Real.pi)
        (pointingOffset pointing crab))
      = Real.cos (pointingOffset pointing crab) := by
    unfold directionalOffsetBy dotV addV smulV
    unfold dotV at hp hn he
    simp only
    linear_combination Real.cos (pointingOffset pointing crab) * hp
      + Real.sin (pointingOffset pointing crab)
        * Real.cos (sourceAngle + Real.pi) * hn
      + Real.sin (pointingOffset pointing crab)
        * Real.sin (sourceAngle + Real.pi) * he
  show angularSep pointing (directionalOffsetBy pointing n e
      (sourceAngle + Real.pi) (pointingOffset pointing crab))
    = pointingOffset pointing crab
  unfold angularSep
  rw [hdot]
  unfold pointingOffset angularSep
  rw [Real.cos_arccos hd1 hd2]

/-- Witness for C9 with an explicit orthonormal frame at the pole. -/
theorem off_region_mirrors_on_region_witness :
    (dotV ⟨0, 0, 1⟩ ⟨0, 0, 1⟩ = 1 ∧ dotV ⟨0, 0, 1⟩ ⟨1, 0, 0⟩ = 0
        ∧ dotV ⟨0, 0, 1⟩ ⟨0, 1, 0⟩ = 0
        ∧ -1 ≤ dotV ⟨0, 0, 1⟩ ⟨0, 1, 0⟩ ∧ dotV ⟨0, 0, 1⟩ ⟨0, 1, 0⟩ ≤ 1)
      ∧ (angularSep ⟨0, 0, 1⟩
            (offRegionOf ⟨0, 0, 1⟩ ⟨0, 1, 0⟩ ⟨1, 0, 0⟩ ⟨0, 1, 0⟩ 0).center
          = pointingOffset ⟨0, 0, 1⟩ ⟨0, 1, 0⟩
        ∧ (offRegionOf ⟨0, 0, 1⟩ ⟨0, 1, 0⟩ ⟨1, 0, 0⟩ ⟨0, 1, 0⟩ 0).center
          = directionalOffsetBy ⟨0, 0, 1⟩ ⟨1, 0, 0⟩ ⟨0, 1, 0⟩ (0 + Real.pi)
              (pointingOffset ⟨0, 0, 1⟩ ⟨0, 1, 0⟩)
        ∧ (offRegionOf ⟨0, 0, 1⟩ ⟨0, 1, 0⟩ ⟨1, 0, 0⟩ ⟨0, 1, 0⟩ 0).radius
          = (onRegionOf ⟨0, 1, 0⟩).radius) := by
  have h1 : dotV ⟨0, 0, 1⟩ ⟨0, 0, 1⟩ = 1 := by
    unfold dotV
    norm_num
  have h2 : dotV ⟨0, 0, 1⟩ ⟨1, 0, 0⟩ = 0 := by
    unfold dotV
    norm_num
  have h3 : dotV ⟨0, 0, 1⟩ ⟨0, 1, 0⟩ = 0 := by
    unfold dotV
    norm_num
  refine ⟨⟨h1, h2, h3, by rw [h3]; norm_num, by rw [h3]; norm_num⟩, ?_⟩
  exact off_region_mirrors_on_region ⟨0, 0, 1⟩ ⟨0, 1, 0⟩ ⟨1, 0, 0⟩ ⟨0, 1, 0⟩ 0
    h1 h2 h3 (by rw [h3]; norm_num) (by rw [h3]; norm_num)

end GammaHandsOn
